import Mathlib

/-!
Simplified DES (12-bit blocks, 9-bit key) and its file codec

Shallow embedding of `sdes.c`, `encrypt.c` and `decrypt.c`.

* Machine integers are natural numbers; every place where C converts a value to
  a narrower unsigned type (`uint8_t`, `uint16_t`, `uint32_t`) is an explicit
  `% 2 ^ w`.
* Arrays are lists, read with `List.getD _ _ 0`.
* A `uint8_t *` that may be `NULL` is an `Option (List Nat)`.
* Files are lists of bytes; a `FILE *` open for reading is a `Stream` that
  carries the bytes not yet read and the end-of-file indicator.
-/

set_option maxRecDepth 100000

namespace SDES

/-! ## sdes.c -/

/-- The constant `block_size` of `sdes.c`. -/
def block_size : Nat := 12

/-- The constant `k_length` of `sdes.c`. -/
def k_length : Nat := 9

/-- The table `s1_box` of `sdes.c`. -/
def s1_box : List Nat := [5, 2, 1, 6, 3, 4, 7, 0, 1, 4, 6, 2, 0, 7, 5, 3]

/-- The table `s2_box` of `sdes.c`. -/
def s2_box : List Nat := [4, 0, 6, 5, 7, 1, 3, 2, 5, 3, 0, 7, 6, 2, 1, 4]

/-- The function `expand` of `sdes.c`; the result is converted to `uint8_t`. -/
def expand (input : Nat) : Nat :=
  (((input &&& 48) <<< 2) ||| ((input &&& 4) <<< 3) ||| ((input &&& 12) <<< 1)
    ||| ((input &&& 8) >>> 1) ||| (input &&& 3)) % 256

/-- The function `confuse` of `sdes.c`; the result is converted to `uint8_t`. -/
def confuse (input : Nat) : Nat :=
  (((s1_box.getD (input >>> 4) 0) <<< 3) ||| s2_box.getD (input &&& 15) 0) % 256

/-- The function `feistel` of `sdes.c`. The argument of `confuse` is an `int`
converted to `uint8_t`. -/
def feistel (input key : Nat) : Nat :=
  confuse ((expand input ^^^ key) % 256)

/-- The function `feistel_round` of `sdes.c`; the result is converted to
`uint16_t`. -/
def feistel_round (input key : Nat) : Nat :=
  (((input &&& 63) <<< 6) ||| (feistel (input &&& 63) key ^^^ (input >>> 6))) % 65536

/-- The body of the `for` loop of `generate_round_keys`: `remaining` iterations
are still to run, starting at index `i` with the masks `l_mask` and `r_mask`
(both `uint32_t`). The keys are returned in index order. -/
def round_keys_loop (original_key : Nat) : Nat → Nat → Nat → Nat → List Nat
  | 0, _, _, _ => []
  | remaining + 1, i, l_mask, r_mask =>
    let l_key := ((original_key &&& l_mask) <<< (k_length + i)) % 2 ^ 32
    let r_key := ((original_key &&& r_mask) <<< i) % 2 ^ 32
    (((l_key ||| r_key) >>> (k_length + 1)) % 256)
      :: round_keys_loop original_key remaining (i + 1) (l_mask >>> 1) (r_mask >>> 1)

/-- The function `generate_round_keys` of `sdes.c`. `none` is the `NULL`
result. -/
def generate_round_keys (original_key num_rounds : Nat) : Option (List Nat) :=
  if num_rounds > k_length then none
  else
    let l_mask := ((2 ^ (k_length - 1) - 1) <<< 1) % 2 ^ 32
    let r_mask := (l_mask <<< k_length) % 2 ^ 32
    some (round_keys_loop original_key num_rounds 0 l_mask r_mask)

/-- The half swap that ends both `encrypt` and `decrypt`: the two `uint16_t`
locals `l_encrypted`, `r_encrypted` and their union. -/
def swap_halves (data : Nat) : Nat :=
  let l := ((data &&& 0x03F) <<< 6) % 65536
  let r := ((data &&& 0xFC0) >>> 6) % 65536
  (l ||| r) % 65536

/-- The function `encrypt` of `sdes.c`: rounds `0, 1, ..., num_rounds - 1`, then
the half swap. -/
def encrypt (unencrypted_data : Nat) (round_keys : List Nat) (num_rounds : Nat) : Nat :=
  swap_halves ((List.range num_rounds).foldl
    (fun data i => feistel_round data (round_keys.getD i 0)) unencrypted_data)

/-- The function `decrypt` of `sdes.c`: rounds `num_rounds - 1, ..., 1, 0`, then
the half swap. -/
def decrypt (encrypted_data : Nat) (round_keys : List Nat) (num_rounds : Nat) : Nat :=
  swap_halves ((List.range num_rounds).reverse.foldl
    (fun data i => feistel_round data (round_keys.getD i 0)) encrypted_data)

/-! ## Reading and writing bit strings (used to state the pattern of `expand`) -/

/-- The value of a bit string written most significant bit first. -/
def of_bits_msb (bits : List Bool) : Nat :=
  bits.foldl (fun acc b => 2 * acc + b.toNat) 0

/-- Bit number `j` of the 6-bit value `x`, the bits being numbered 1 to 6 from
the most significant (bit 1 has weight 32) to the least significant one. -/
def input_bit (x j : Nat) : Bool := x.testBit (6 - j)

/-! ## stdio: streams and object representations -/

/-- A file open for reading (`FILE *` after `fopen(_, "rb")`): the bytes not yet
read and the end-of-file indicator tested by `feof`. -/
structure Stream where
  rest : List Nat
  eof : Bool
deriving DecidableEq

/-- The stream returned by `fopen(name, "rb")` (also the state after
`fseek(f, 0, SEEK_SET)`). -/
def fopen_rb (content : List Nat) : Stream := ⟨content, false⟩

/-- The call `fread(buf, 1, count, f)`: the bytes transferred (their number is
the return value) and the stream afterwards. The end-of-file indicator is set
when fewer than `count` bytes were left. -/
def fread (f : Stream) (count : Nat) : List Nat × Stream :=
  let got := f.rest.take count
  (got, { rest := f.rest.drop count, eof := f.eof || decide (got.length < count) })

/-- The value of a zero-initialised unsigned integer after `bytes` were stored
at its lowest addresses (little-endian). -/
def le_value : List Nat → Nat
  | [] => 0
  | b :: bs => b + 256 * le_value bs

/-- The first `count` bytes of the object representation of the unsigned
integer `v` (little-endian), as `fwrite(&v, 1, count, f)` writes them. -/
def le_bytes (v count : Nat) : List Nat :=
  (List.range count).map (fun j => (v >>> (8 * j)) % 256)

/-! ## encrypt.c and decrypt.c -/

/-- How a run of `encrypt_file` or `decrypt_file` ended. -/
inductive Status where
  /-- The loop ended on `feof` and the function returned normally. -/
  | finished
  /-- The early return of `decrypt_file` on `file_size % 3 != 1`. -/
  | bad_format
  /-- The block cipher was called with `keys == NULL`, which it dereferences. -/
  | null_keys
  /-- The call `fwrite(&decrypted_data, 1, output_val, _)` with `output_val`
  larger than the four bytes of `decrypted_data`. -/
  | overread
  /-- The iteration bound of the embedding was reached. The bounds chosen in
  `encrypt_file` and `decrypt_file` exceed the number of iterations of their
  loops (`encrypt_file_eq`, `decrypt_file_eq`). -/
  | out_of_fuel
deriving DecidableEq

/-- The observable result of a run: the bytes written to the output file, the
number of calls of the block cipher (`encrypt` or `decrypt`) that were made, and
how the run ended. -/
structure Run where
  output : List Nat
  blocks : Nat
  status : Status
deriving DecidableEq

/-- The `while (!feof(input_file))` loop of `encrypt_file`. The state is the
input stream and the run so far; `fuel` bounds the number of iterations. The
model has no read errors, so the `ferror` branch is never taken. -/
def encrypt_file_loop (keys : Option (List Nat)) (num_rounds : Nat) :
    Nat → Stream → Run → Run
  | 0, _, r => { r with status := Status.out_of_fuel }
  | fuel + 1, input_file, r =>
    if input_file.eof then r
    else
      let (got, input_file1) := fread input_file 3
      let unencrypted_data := le_value got
      let num_read := got.length
      if num_read > 0 then
        match keys with
        | none => { r with blocks := r.blocks + 1, status := Status.null_keys }
        | some ks =>
          let block1 := (unencrypted_data &&& 0xFFF) % 65536
          let block2 := (unencrypted_data >>> 12) % 65536
          let encrypted_block1 := encrypt block1 ks num_rounds
          let encrypted_block2 := encrypt block2 ks num_rounds
          let output_val := (encrypted_block1 ||| (encrypted_block2 <<< 12)) % 2 ^ 32
          encrypt_file_loop keys num_rounds fuel input_file1
            { r with output := r.output ++ le_bytes output_val 3, blocks := r.blocks + 2 }
      else encrypt_file_loop keys num_rounds fuel input_file1 r

/-- The function `encrypt_file` of `encrypt.c`, on the content of the input
file (both files are taken to open). `key` is a `uint16_t` and `num_rounds` a
`uint8_t`. -/
def encrypt_file (content : List Nat) (key num_rounds : Nat) : Run :=
  let input_file := fopen_rb content
  let input_size := content.length
  let leftover := (input_size % 3) % 256
  let padding := if leftover > 0 then (3 - leftover) % 256 else 0
  let keys := generate_round_keys key num_rounds
  encrypt_file_loop keys num_rounds (input_size + 2) input_file
    { output := le_bytes padding 1, blocks := 0, status := Status.finished }

/-- The `while (!feof(input_file))` loop of `decrypt_file`. The state is the
input stream, the counter `remaining_reads` (a `long int`) and the run so far;
`fuel` bounds the number of iterations. The model has no read errors. -/
def decrypt_file_loop (keys : Option (List Nat)) (num_rounds padding : Nat) :
    Nat → Stream → Int → Run → Run
  | 0, _, _, r => { r with status := Status.out_of_fuel }
  | fuel + 1, input_file, remaining_reads, r =>
    if input_file.eof then r
    else
      let (got, input_file1) := fread input_file 3
      let input_val := le_value got
      let num_read := got.length
      let remaining_reads1 := remaining_reads - 1
      if num_read = 3 then
        match keys with
        | none => { r with blocks := r.blocks + 1, status := Status.null_keys }
        | some ks =>
          let l_half := (input_val >>> 12) % 65536
          let r_half := (input_val &&& 0xFFF) % 65536
          let l_decrypted := decrypt l_half ks num_rounds
          let r_decrypted := decrypt r_half ks num_rounds
          let decrypted_data := ((l_decrypted <<< 12) ||| r_decrypted) % 2 ^ 32
          let output_val := if remaining_reads1 = 0 then (3 + 256 - padding) % 256 else 3
          if output_val > 4 then
            { r with blocks := r.blocks + 2, status := Status.overread }
          else
            decrypt_file_loop keys num_rounds padding fuel input_file1 remaining_reads1
              { r with output := r.output ++ le_bytes decrypted_data output_val,
                       blocks := r.blocks + 2 }
      else decrypt_file_loop keys num_rounds padding fuel input_file1 remaining_reads1 r

/-- The function `decrypt_file` of `decrypt.c`, on the content of the encrypted
file (both files are taken to open). `key` is a `uint16_t` and `num_rounds` a
`uint8_t`. -/
def decrypt_file (encrypted : List Nat) (key num_rounds : Nat) : Run :=
  let input_file := fopen_rb encrypted
  let file_size : Int := encrypted.length
  if file_size % 3 ≠ 1 then
    { output := [], blocks := 0, status := Status.bad_format }
  else
    let remaining_reads : Int := (file_size - 1) / 3
    let (got, input_file1) := fread input_file 1
    let padding := le_value got
    let keys := generate_round_keys key num_rounds
    decrypt_file_loop keys num_rounds padding (encrypted.length + 1) input_file1
      remaining_reads { output := [], blocks := 0, status := Status.finished }

/-! ## The transformation of one group and of a whole file body

These functions restate what the loop bodies of `encrypt_file` and
`decrypt_file` compute; `encrypt_file_loop_eq` and `decrypt_file_loop_eq` relate
them to the loops. -/

/-- The 24-bit value written by one iteration of the loop of `encrypt_file`
that read the 24-bit value `v`. -/
def encrypt_group (ks : List Nat) (num_rounds v : Nat) : Nat :=
  (encrypt ((v &&& 0xFFF) % 65536) ks num_rounds
    ||| (encrypt ((v >>> 12) % 65536) ks num_rounds <<< 12)) % 2 ^ 32

/-- The 24-bit value computed by one iteration of the loop of `decrypt_file`
that read the 24-bit value `v`. -/
def decrypt_group (ks : List Nat) (num_rounds v : Nat) : Nat :=
  ((decrypt ((v >>> 12) % 65536) ks num_rounds <<< 12)
    ||| decrypt ((v &&& 0xFFF) % 65536) ks num_rounds) % 2 ^ 32

/-- The bytes that follow the padding byte in the output of `encrypt_file`: one
3-byte group for every started group of 3 input bytes. -/
def encrypt_body (ks : List Nat) (num_rounds : Nat) : List Nat → List Nat
  | [] => []
  | a :: b :: c :: rest =>
    le_bytes (encrypt_group ks num_rounds (le_value [a, b, c])) 3
      ++ encrypt_body ks num_rounds rest
  | short => le_bytes (encrypt_group ks num_rounds (le_value short)) 3

/-- The bytes written by `decrypt_file` for the groups that follow the padding
byte: 3 bytes for every group but the last one, which is cut to `last` bytes. -/
def decrypt_body (ks : List Nat) (num_rounds last : Nat) : List Nat → List Nat
  | [a, b, c] => le_bytes (decrypt_group ks num_rounds (le_value [a, b, c])) last
  | a :: b :: c :: rest =>
    le_bytes (decrypt_group ks num_rounds (le_value [a, b, c])) 3
      ++ decrypt_body ks num_rounds last rest
  | _ => []


/-! ## The block cipher with bounds-checked array reads

The same functions as above, except that a read outside an array gives `none`
instead of the default value of `List.getD`. -/

/-- The function `confuse` with both table reads checked. -/
def confuse_checked (input : Nat) : Option Nat :=
  match s1_box[input >>> 4]?, s2_box[input &&& 15]? with
  | some a, some b => some (((a <<< 3) ||| b) % 256)
  | _, _ => none

/-- The function `feistel` over `confuse_checked`. -/
def feistel_checked (input key : Nat) : Option Nat :=
  confuse_checked ((expand input ^^^ key) % 256)

/-- The function `feistel_round` over `feistel_checked`. -/
def feistel_round_checked (input key : Nat) : Option Nat :=
  (feistel_checked (input &&& 63) key).map
    (fun f => (((input &&& 63) <<< 6) ||| (f ^^^ (input >>> 6))) % 65536)

/-- The round loop of `encrypt` and `decrypt` over the indices `idxs`, in that
order, every read `round_keys[i]` being checked. -/
def rounds_checked (round_keys : List Nat) : List Nat → Nat → Option Nat
  | [], data => some data
  | i :: idxs, data =>
    match round_keys[i]? with
    | none => none
    | some key =>
      match feistel_round_checked data key with
      | none => none
      | some data1 => rounds_checked round_keys idxs data1

/-- The function `encrypt` with every array read checked. -/
def encrypt_checked (unencrypted_data : Nat) (round_keys : List Nat) (num_rounds : Nat) :
    Option Nat :=
  (rounds_checked round_keys (List.range num_rounds) unencrypted_data).map swap_halves

/-- The function `decrypt` with every array read checked. -/
def decrypt_checked (encrypted_data : Nat) (round_keys : List Nat) (num_rounds : Nat) :
    Option Nat :=
  (rounds_checked round_keys (List.range num_rounds).reverse encrypted_data).map swap_halves

/-! ## The key schedule as a rotation -/

/-- The 9-bit value `k` rotated left by `i` positions (`i ≤ 9`). -/
def rotl9 (k i : Nat) : Nat :=
  ((k <<< i) ||| (k >>> (9 - i))) &&& 0x1FF

/-- The closed form of subkey `i`: the top 8 bits of `k` rotated left by `i`
within 9 bits. -/
def subkey_closed_form (k i : Nat) : Nat :=
  rotl9 k i >>> 1

/-! ## Bit-level facts -/

theorem and_63 (x : Nat) : x &&& 63 = x % 64 :=
  Nat.and_pow_two_sub_one_eq_mod x 6

theorem shl_6 (x : Nat) : x <<< 6 = 64 * x := by
  rw [Nat.shiftLeft_eq]; omega

theorem shr_6 (x : Nat) : x >>> 6 = x / 64 :=
  Nat.shiftRight_eq_div_pow x 6

theorem and_fc0_shr (x : Nat) : (x &&& 0xFC0) >>> 6 = (x / 64) % 64 := by
  apply Nat.eq_of_testBit_eq
  intro i
  have h : (4032 : Nat).testBit (6 + i) = decide (i < 6) := by
    rw [← Nat.testBit_shiftRight]
    exact Nat.testBit_two_pow_sub_one 6 i
  rw [Nat.testBit_shiftRight, Nat.testBit_and, h, show (64 : Nat) = 2 ^ 6 from rfl,
    Nat.testBit_mod_two_pow, ← Nat.shiftRight_eq_div_pow, Nat.testBit_shiftRight,
    Bool.and_comm]

theorem or_low (a b : Nat) (hb : b < 64) : 64 * a ||| b = 64 * a + b :=
  (Nat.mul_add_lt_is_or (show b < 2 ^ 6 from hb) a).symm

theorem confuse_lt : ∀ x < 256, confuse x < 64 := by decide

theorem feistel_lt (input key : Nat) : feistel input key < 64 :=
  confuse_lt _ (Nat.mod_lt _ (by decide))

/-! ## The round function and the half swap on 12-bit blocks -/

theorem feistel_round_eq (x key : Nat) (hx : x < 4096) :
    feistel_round x key = 64 * (x % 64) + (feistel (x % 64) key ^^^ (x / 64)) := by
  have hf := feistel_lt (x % 64) key
  have hL : x / 64 < 64 := by omega
  have hx6 : feistel (x % 64) key ^^^ (x / 64) < 64 :=
    Nat.xor_lt_two_pow (show _ < 2 ^ 6 from hf) (show _ < 2 ^ 6 from hL)
  unfold feistel_round
  rw [and_63, shl_6, shr_6, or_low _ _ hx6]
  omega

theorem swap_halves_eq (x : Nat) :
    swap_halves x = 64 * (x % 64) + (x / 64) % 64 := by
  unfold swap_halves
  simp only []
  rw [and_63, shl_6, and_fc0_shr]
  have h1 : 64 * (x % 64) % 65536 = 64 * (x % 64) := by omega
  have h2 : x / 64 % 64 % 65536 = x / 64 % 64 := by omega
  rw [h1, h2, or_low _ _ (by omega)]
  omega

theorem feistel_round_lt (x key : Nat) (hx : x < 4096) : feistel_round x key < 4096 := by
  have hf := feistel_lt (x % 64) key
  have hL : x / 64 < 64 := by omega
  have hx6 : feistel (x % 64) key ^^^ (x / 64) < 64 :=
    Nat.xor_lt_two_pow (show _ < 2 ^ 6 from hf) (show _ < 2 ^ 6 from hL)
  rw [feistel_round_eq x key hx]
  omega

theorem swap_halves_lt (x : Nat) : swap_halves x < 4096 := by
  rw [swap_halves_eq]; omega

theorem swap_halves_swap_halves (x : Nat) (hx : x < 4096) :
    swap_halves (swap_halves x) = x := by
  rw [swap_halves_eq, swap_halves_eq]
  have hR : x % 64 < 64 := Nat.mod_lt _ (by decide)
  have hL : x / 64 < 64 := by omega
  have hx64 : x = 64 * (x / 64) + x % 64 := by omega
  rw [Nat.mod_eq_of_lt hL]
  generalize x % 64 = R at hR hx64 ⊢
  generalize x / 64 = L at hL hx64 ⊢
  have h1 : (64 * R + L) / 64 = R := by omega
  have h2 : (64 * R + L) % 64 = L := by omega
  rw [h1, h2, Nat.mod_eq_of_lt hR]
  omega

/-- One round, a half swap and the same round again amount to a half swap: the
identity behind the invertibility of the Feistel network. -/
theorem round_swap_round (x key : Nat) (hx : x < 4096) :
    feistel_round (swap_halves (feistel_round x key)) key = swap_halves x := by
  have hf := feistel_lt (x % 64) key
  have hL : x / 64 < 64 := by omega
  have hx6 : feistel (x % 64) key ^^^ (x / 64) < 64 :=
    Nat.xor_lt_two_pow (show _ < 2 ^ 6 from hf) (show _ < 2 ^ 6 from hL)
  have hy : swap_halves (feistel_round x key)
      = 64 * (feistel (x % 64) key ^^^ (x / 64)) + x % 64 := by
    rw [swap_halves_eq, feistel_round_eq x key hx]; omega
  rw [hy, feistel_round_eq _ _ (by omega)]
  have hm : (64 * (feistel (x % 64) key ^^^ (x / 64)) + x % 64) % 64 = x % 64 := by omega
  have hd : (64 * (feistel (x % 64) key ^^^ (x / 64)) + x % 64) / 64
      = feistel (x % 64) key ^^^ (x / 64) := by omega
  rw [hm, hd, Nat.xor_cancel_left, swap_halves_eq]
  omega

/-! ## The round loops as folds over the key list -/

/-- The rounds of `encrypt` (keys in list order), without the final swap. -/
theorem range_map_getD (ks : List Nat) (n : Nat) (hn : n ≤ ks.length) :
    (List.range n).map (fun i => ks.getD i 0) = ks.take n := by
  apply List.ext_getElem
  · simp [hn]
  · intro i h1 h2
    simp at h1 h2
    simp [List.getD_eq_getElem, h2.2]

theorem encrypt_eq_foldl (x : Nat) (ks : List Nat) :
    encrypt x ks ks.length = swap_halves (ks.foldl feistel_round x) := by
  unfold encrypt
  rw [← List.foldl_map (fun i => ks.getD i 0) feistel_round, range_map_getD ks _ le_rfl,
    List.take_length]

theorem decrypt_eq_foldl (x : Nat) (ks : List Nat) :
    decrypt x ks ks.length = swap_halves (ks.reverse.foldl feistel_round x) := by
  unfold decrypt
  rw [← List.foldl_map (fun i => ks.getD i 0) feistel_round, List.map_reverse,
    range_map_getD ks _ le_rfl, List.take_length]

theorem foldl_round_lt (ks : List Nat) : ∀ x, x < 4096 →
    ks.foldl feistel_round x < 4096 := by
  induction ks with
  | nil => intro x hx; simpa using hx
  | cons k t ih => intro x hx; exact ih _ (feistel_round_lt x k hx)

/-- Running the rounds forward, swapping, and running them backward is a half
swap. -/
theorem rounds_swap_rounds (ks : List Nat) : ∀ x, x < 4096 →
    ks.reverse.foldl feistel_round (swap_halves (ks.foldl feistel_round x))
      = swap_halves x := by
  induction ks with
  | nil => intro x _; rfl
  | cons k t ih =>
    intro x hx
    rw [List.reverse_cons, List.foldl_append, List.foldl_cons, List.foldl_cons,
      List.foldl_nil, ih _ (feistel_round_lt x k hx)]
    exact round_swap_round x k hx

theorem decrypt_encrypt_list (ks : List Nat) (b : Nat) (hb : b < 4096) :
    decrypt (encrypt b ks ks.length) ks ks.length = b := by
  rw [encrypt_eq_foldl, decrypt_eq_foldl, rounds_swap_rounds ks b hb,
    swap_halves_swap_halves b hb]

theorem encrypt_decrypt_list (ks : List Nat) (b : Nat) (hb : b < 4096) :
    encrypt (decrypt b ks ks.length) ks ks.length = b := by
  rw [encrypt_eq_foldl, decrypt_eq_foldl]
  have h := rounds_swap_rounds ks.reverse b hb
  rw [List.reverse_reverse] at h
  rw [h, swap_halves_swap_halves b hb]

theorem encrypt_lt (x : Nat) (ks : List Nat) (n : Nat) : encrypt x ks n < 4096 :=
  swap_halves_lt _

theorem decrypt_lt (x : Nat) (ks : List Nat) (n : Nat) : decrypt x ks n < 4096 :=
  swap_halves_lt _

/-! ## The key schedule -/

theorem round_keys_loop_length (k : Nat) : ∀ (m i l r : Nat),
    (round_keys_loop k m i l r).length = m := by
  intro m
  induction m with
  | zero => intro i l r; rfl
  | succ m ih => intro i l r; simp [round_keys_loop, ih]

theorem generate_round_keys_some (k n : Nat) (hn : n ≤ 9) :
    ∃ ks, generate_round_keys k n = some ks ∧ ks.length = n := by
  unfold generate_round_keys
  rw [if_neg (by unfold k_length; omega)]
  exact ⟨_, rfl, round_keys_loop_length k n _ _ _⟩


/-! ## Claims on the block cipher and the key schedule -/

/-- C1 (block round trip): for every 12-bit block `b`, every master key
`k ≤ 0x1FF` and every round count `n` in `[1, 9]`, the key schedule succeeds
with some `ks`, and `decrypt (encrypt b ks n) ks n = b`. -/
theorem block_round_trip (b k n : Nat) (hb : b < 4096) (_hk : k ≤ 0x1FF)
    (_h1 : 1 ≤ n) (h9 : n ≤ 9) :
    ∃ ks, generate_round_keys k n = some ks ∧ decrypt (encrypt b ks n) ks n = b := by
  obtain ⟨ks, hks, hlen⟩ := generate_round_keys_some k n h9
  refine ⟨ks, hks, ?_⟩
  subst hlen
  exact decrypt_encrypt_list ks b hb

theorem block_round_trip_witness :
    (0x123 < 4096 ∧ 0x1C0 ≤ 0x1FF ∧ 1 ≤ 2 ∧ 2 ≤ 9) ∧
    ∃ ks, generate_round_keys 0x1C0 2 = some ks ∧
      decrypt (encrypt 0x123 ks 2) ks 2 = 0x123 :=
  ⟨by decide, block_round_trip 0x123 0x1C0 2 (by decide) (by decide) (by decide) (by decide)⟩

/-- C4: `generate_round_keys k n` returns the absent (`NULL`) result for every
round count `n > 9` and every key `k ≤ 0x1FF`. -/
theorem generate_round_keys_fails (k n : Nat) (_hk : k ≤ 0x1FF) (hn : 9 < n) :
    generate_round_keys k n = none := by
  unfold generate_round_keys
  exact if_pos hn

theorem generate_round_keys_fails_witness :
    (0x1C0 ≤ 0x1FF ∧ 9 < 10) ∧ generate_round_keys 0x1C0 10 = none :=
  ⟨by decide, generate_round_keys_fails 0x1C0 10 (by decide) (by decide)⟩

/-- C6 (fails on the code): the bits above bit 8 of the 16-bit key are not
ignored. For the key `0x0400` and one round the schedule is `[1]`, while for
`0x0400 & 0x1FF = 0` it is `[0]`, and `encrypt_file` writes different bytes for
the one-byte file `[0x41]`. -/
theorem high_key_bits_not_ignored :
    generate_round_keys 0x400 1 = some [1] ∧
    generate_round_keys (0x400 &&& 0x1FF) 1 = some [0] ∧
    (encrypt_file [0x41] 0x400 1).output = [2, 0x41, 0x0B, 0xA0] ∧
    (encrypt_file [0x41] (0x400 &&& 0x1FF) 1).output = [2, 0x41, 0x0A, 0xB0] := by
  decide

/-- C8: `expand` implements the bit pattern 12434356: for every 6-bit input
with bits b1 ... b6 (b1 most significant), the result is the 8-bit value whose
bits, most significant first, are b1 b2 b4 b3 b4 b3 b5 b6. -/
theorem expand_pattern (x : Nat) (hx : x < 64) :
    expand x = of_bits_msb ([1, 2, 4, 3, 4, 3, 5, 6].map (input_bit x)) := by
  revert x
  decide

theorem expand_pattern_witness :
    0b101101 < 64 ∧
    expand 0b101101 = of_bits_msb ([1, 2, 4, 3, 4, 3, 5, 6].map (input_bit 0b101101)) :=
  ⟨by decide, expand_pattern 0b101101 (by decide)⟩

/-- C9: `confuse` is the concatenation of two 3-bit substitutions: for every
8-bit input `x`, `confuse x < 64`, its high 3 bits are `s1_box[x >> 4]` and its
low 3 bits are `s2_box[x & 15]` (both indices are inside the tables), and every
entry of both tables is a 3-bit value. -/
theorem confuse_concat (x : Nat) (hx : x < 256) :
    confuse x < 64 ∧
    confuse x >>> 3 = s1_box.getD (x >>> 4) 0 ∧
    confuse x &&& 7 = s2_box.getD (x &&& 15) 0 ∧
    x >>> 4 < s1_box.length ∧ x &&& 15 < s2_box.length ∧
    (∀ e ∈ s1_box, e < 8) ∧ (∀ e ∈ s2_box, e < 8) := by
  revert x
  decide

theorem confuse_concat_witness :
    0xA7 < 256 ∧
    (confuse 0xA7 < 64 ∧
    confuse 0xA7 >>> 3 = s1_box.getD (0xA7 >>> 4) 0 ∧
    confuse 0xA7 &&& 7 = s2_box.getD (0xA7 &&& 15) 0 ∧
    0xA7 >>> 4 < s1_box.length ∧ 0xA7 &&& 15 < s2_box.length ∧
    (∀ e ∈ s1_box, e < 8) ∧ (∀ e ∈ s2_box, e < 8)) :=
  ⟨by decide, confuse_concat 0xA7 (by decide)⟩

/-- C10: for every list `ks` of `n` subkeys (not necessarily produced by the key
schedule) and every 12-bit block `b`, `encrypt (decrypt b ks n) ks n = b` and
`decrypt (encrypt b ks n) ks n = b`, and `encrypt · ks n` is a bijection of the
12-bit blocks onto themselves. -/
theorem encrypt_decrypt_inverse (ks : List Nat) (n : Nat) (hn : ks.length = n) :
    (∀ b, b < 4096 → encrypt (decrypt b ks n) ks n = b ∧ decrypt (encrypt b ks n) ks n = b) ∧
    Set.BijOn (fun b => encrypt b ks n) {b | b < 4096} {b | b < 4096} := by
  subst hn
  refine ⟨fun b hb => ⟨encrypt_decrypt_list ks b hb, decrypt_encrypt_list ks b hb⟩, ?_, ?_, ?_⟩
  · intro b _
    exact encrypt_lt b ks _
  · intro a ha b hb hab
    have h := congrArg (fun y => decrypt y ks ks.length) hab
    simp only [] at h
    rwa [decrypt_encrypt_list ks a ha, decrypt_encrypt_list ks b hb] at h
  · intro b hb
    exact ⟨decrypt b ks ks.length, decrypt_lt b ks _, encrypt_decrypt_list ks b hb⟩

theorem encrypt_decrypt_inverse_witness :
    [0xE0, 0x07, 0xFF].length = 3 ∧
    ((∀ b, b < 4096 → encrypt (decrypt b [0xE0, 0x07, 0xFF] 3) [0xE0, 0x07, 0xFF] 3 = b ∧
      decrypt (encrypt b [0xE0, 0x07, 0xFF] 3) [0xE0, 0x07, 0xFF] 3 = b) ∧
    Set.BijOn (fun b => encrypt b [0xE0, 0x07, 0xFF] 3) {b | b < 4096} {b | b < 4096}) :=
  ⟨rfl, encrypt_decrypt_inverse [0xE0, 0x07, 0xFF] 3 rfl⟩


/-! ## The loops of the file codec -/

theorem encrypt_file_loop_eq (ks : List Nat) (n : Nat) :
    ∀ (rest : List Nat) (fuel : Nat) (r : Run), rest.length + 2 ≤ fuel →
      encrypt_file_loop (some ks) n fuel ⟨rest, false⟩ r =
        { output := r.output ++ encrypt_body ks n rest,
          blocks := r.blocks + 2 * ((rest.length + 2) / 3),
          status := r.status }
  | [], fuel, r, h => by
    obtain ⟨f, rfl⟩ : ∃ f, fuel = f + 2 := ⟨fuel - 2, by simp at h; omega⟩
    simp [encrypt_file_loop, fread, encrypt_body]
  | [a], fuel, r, h => by
    obtain ⟨f, rfl⟩ : ∃ f, fuel = f + 2 := ⟨fuel - 2, by simp at h; omega⟩
    simp [encrypt_file_loop, fread, encrypt_body, encrypt_group]
  | [a, b], fuel, r, h => by
    obtain ⟨f, rfl⟩ : ∃ f, fuel = f + 2 := ⟨fuel - 2, by simp at h; omega⟩
    simp [encrypt_file_loop, fread, encrypt_body, encrypt_group]
  | a :: b :: c :: rest, fuel, r, h => by
    obtain ⟨f, rfl⟩ : ∃ f, fuel = f + 1 := ⟨fuel - 1, by simp at h; omega⟩
    have ih := encrypt_file_loop_eq ks n rest f
      { r with output := r.output ++ le_bytes (encrypt_group ks n (le_value [a, b, c])) 3,
               blocks := r.blocks + 2 } (by simp at h; omega)
    simp only [encrypt_file_loop, fread, encrypt_body, encrypt_group] at ih ⊢
    simp at ih ⊢
    rw [ih]
    simp
    omega


theorem decrypt_file_loop_eq (ks : List Nat) (n p : Nat) (hp : (3 + 256 - p) % 256 ≤ 4) :
    ∀ (rest : List Nat) (fuel : Nat) (rem : Int) (r : Run), rest.length % 3 = 0 →
      rem = ((rest.length / 3 : Nat) : Int) → rest.length + 2 ≤ fuel →
      decrypt_file_loop (some ks) n p fuel ⟨rest, false⟩ rem r =
        { output := r.output ++ decrypt_body ks n ((3 + 256 - p) % 256) rest,
          blocks := r.blocks + 2 * (rest.length / 3),
          status := r.status }
  | [], fuel, rem, r, _, _, h => by
    obtain ⟨f, rfl⟩ : ∃ f, fuel = f + 2 := ⟨fuel - 2, by simp at h; omega⟩
    simp [decrypt_file_loop, fread, decrypt_body]
  | [_], _, _, _, h3, _, _ => by simp at h3
  | [_, _], _, _, _, h3, _, _ => by simp at h3
  | a :: b :: c :: rest, fuel, rem, r, h3, hrem, h => by
    obtain ⟨f, rfl⟩ : ∃ f, fuel = f + 1 := ⟨fuel - 1, by simp at h; omega⟩
    have h3r : rest.length % 3 = 0 := by simp at h3; omega
    have hrem1 : rem - 1 = ((rest.length / 3 : Nat) : Int) := by
      simp only [List.length_cons] at hrem
      omega
    have hf : rest.length + 2 ≤ f := by simp at h; omega
    have hdiv : (a :: b :: c :: rest).length / 3 = rest.length / 3 + 1 := by
      simp only [List.length_cons]; omega
    cases rest with
    | nil =>
      have hz : rem - 1 = 0 := by simpa using hrem1
      have ih := decrypt_file_loop_eq ks n p hp [] f (rem - 1)
        { r with output := r.output ++
                   le_bytes (decrypt_group ks n (le_value [a, b, c])) ((3 + 256 - p) % 256),
                 blocks := r.blocks + 2 } h3r hrem1 hf
      have hp4 : ¬ (4 < (259 - p) % 256) := by omega
      simp only [decrypt_file_loop, fread, decrypt_body, decrypt_group] at ih ⊢
      simp [hz, hp4] at ih ⊢
      rw [ih]
    | cons d rest =>
      have hnz : rem - 1 ≠ 0 := by
        rw [hrem1]
        simp only [List.length_cons] at h3r ⊢
        omega
      have ih := decrypt_file_loop_eq ks n p hp (d :: rest) f (rem - 1)
        { r with output := r.output ++ le_bytes (decrypt_group ks n (le_value [a, b, c])) 3,
                 blocks := r.blocks + 2 } h3r hrem1 hf
      simp only [decrypt_file_loop, fread, decrypt_body, decrypt_group] at ih ⊢
      simp [hnz] at ih ⊢
      rw [ih]
      simp
      omega


/-! ## Bytes and 24-bit values -/

theorem le_bytes_one (v : Nat) : le_bytes v 1 = [v % 256] := by
  simp [le_bytes, List.range_succ]

theorem le_bytes_two (v : Nat) : le_bytes v 2 = [v % 256, v / 256 % 256] := by
  simp [le_bytes, List.range_succ, Nat.shiftRight_eq_div_pow]

theorem le_bytes_three (v : Nat) :
    le_bytes v 3 = [v % 256, v / 256 % 256, v / 65536 % 256] := by
  simp [le_bytes, List.range_succ, Nat.shiftRight_eq_div_pow]

theorem le_bytes_length (v count : Nat) : (le_bytes v count).length = count := by
  simp [le_bytes]

theorem le_value_le_bytes_three (v : Nat) (hv : v < 2 ^ 24) :
    le_value (le_bytes v 3) = v := by
  rw [le_bytes_three]
  simp only [le_value]
  omega

theorem or_shl_12 (lo hi : Nat) (hlo : lo < 4096) : lo ||| (hi <<< 12) = 4096 * hi + lo := by
  rw [Nat.or_comm, Nat.shiftLeft_eq, Nat.mul_comm]
  exact (Nat.mul_add_lt_is_or (show lo < 2 ^ 12 from hlo) hi).symm

theorem and_fff (v : Nat) : v &&& 0xFFF = v % 4096 :=
  Nat.and_pow_two_sub_one_eq_mod v 12

theorem shr_12 (v : Nat) : v >>> 12 = v / 4096 :=
  Nat.shiftRight_eq_div_pow v 12

theorem encrypt_group_eq (ks : List Nat) (n v : Nat) (hv : v < 2 ^ 24) :
    encrypt_group ks n v = 4096 * encrypt (v / 4096) ks n + encrypt (v % 4096) ks n := by
  have h1 := encrypt_lt (v % 4096) ks n
  have h2 := encrypt_lt (v / 4096) ks n
  unfold encrypt_group
  rw [and_fff, shr_12, or_shl_12 _ _ (encrypt_lt _ ks n)]
  have e1 : v % 4096 % 65536 = v % 4096 := by omega
  have e2 : v / 4096 % 65536 = v / 4096 := by omega
  rw [e1, e2]
  omega

theorem decrypt_group_eq (ks : List Nat) (n v : Nat) (hv : v < 2 ^ 24) :
    decrypt_group ks n v = 4096 * decrypt (v / 4096) ks n + decrypt (v % 4096) ks n := by
  have h1 := decrypt_lt (v % 4096) ks n
  have h2 := decrypt_lt (v / 4096) ks n
  unfold decrypt_group
  rw [and_fff, shr_12, Nat.or_comm, or_shl_12 _ _ (decrypt_lt _ ks n)]
  have e1 : v % 4096 % 65536 = v % 4096 := by omega
  have e2 : v / 4096 % 65536 = v / 4096 := by omega
  rw [e1, e2]
  omega

theorem encrypt_group_lt (ks : List Nat) (n v : Nat) (hv : v < 2 ^ 24) :
    encrypt_group ks n v < 2 ^ 24 := by
  have h1 := encrypt_lt (v % 4096) ks n
  have h2 := encrypt_lt (v / 4096) ks n
  rw [encrypt_group_eq ks n v hv]
  omega

/-- Decrypting the three bytes written for a group gives back the 24-bit value
that was read. -/
theorem decrypt_group_encrypt_group (ks : List Nat) (v : Nat) (hv : v < 2 ^ 24) :
    decrypt_group ks ks.length (le_value (le_bytes (encrypt_group ks ks.length v) 3)) = v := by
  have hW := encrypt_group_lt ks ks.length v hv
  rw [le_value_le_bytes_three _ hW, decrypt_group_eq _ _ _ hW,
    encrypt_group_eq ks ks.length v hv]
  have h1 := encrypt_lt (v % 4096) ks ks.length
  have h2 := encrypt_lt (v / 4096) ks ks.length
  have hd : (4096 * encrypt (v / 4096) ks ks.length + encrypt (v % 4096) ks ks.length) / 4096
      = encrypt (v / 4096) ks ks.length := by omega
  have hm : (4096 * encrypt (v / 4096) ks ks.length + encrypt (v % 4096) ks ks.length) % 4096
      = encrypt (v % 4096) ks ks.length := by omega
  rw [hd, hm, decrypt_encrypt_list ks _ (by omega), decrypt_encrypt_list ks _ (by omega)]
  omega

theorem encrypt_body_length (ks : List Nat) (n : Nat) :
    ∀ c : List Nat, (encrypt_body ks n c).length = 3 * ((c.length + 2) / 3)
  | [] => by simp [encrypt_body]
  | [_] => by simp [encrypt_body, le_bytes_length]
  | [_, _] => by simp [encrypt_body, le_bytes_length]
  | a :: b :: c :: rest => by
    have ih := encrypt_body_length ks n rest
    simp only [encrypt_body, List.length_append, le_bytes_length, ih, List.length_cons]
    omega

/-- The padding count computed by `encrypt_file` for an input of `L` bytes. -/
theorem padding_eq (L : Nat) :
    (if L % 3 % 256 > 0 then (3 - L % 3 % 256) % 256 else 0) = (3 - L % 3) % 3 := by
  split <;> omega

theorem group_round_trip (ks : List Nat) (v : Nat) (hv : v < 2 ^ 24) :
    ∃ x y z, le_bytes (encrypt_group ks ks.length v) 3 = [x, y, z] ∧
      decrypt_group ks ks.length (le_value [x, y, z]) = v := by
  refine ⟨_, _, _, le_bytes_three _, ?_⟩
  rw [← le_bytes_three]
  exact decrypt_group_encrypt_group ks v hv

theorem le_bytes_le_value_one (a : Nat) (ha : a < 256) : le_bytes (le_value [a]) 1 = [a] := by
  rw [le_bytes_one]
  simp only [le_value]
  congr 1
  omega

theorem le_bytes_le_value_two (a b : Nat) (ha : a < 256) (hb : b < 256) :
    le_bytes (le_value [a, b]) 2 = [a, b] := by
  rw [le_bytes_two]
  simp only [le_value]
  congr 1
  · omega
  · congr 1
    omega

theorem le_bytes_le_value_three (a b c : Nat) (ha : a < 256) (hb : b < 256) (hc : c < 256) :
    le_bytes (le_value [a, b, c]) 3 = [a, b, c] := by
  rw [le_bytes_three]
  simp only [le_value]
  congr 1
  · omega
  · congr 1
    · omega
    · congr 1
      omega

theorem le_value_lt (got : List Nat) (hlen : got.length ≤ 3) (h : ∀ b ∈ got, b < 256) :
    le_value got < 2 ^ 24 := by
  match got, hlen, h with
  | [], _, _ => simp [le_value]
  | [a], _, h =>
    have ha : a < 256 := h a (by simp)
    simp only [le_value]; omega
  | [a, b], _, h =>
    have ha : a < 256 := h a (by simp)
    have hb : b < 256 := h b (by simp)
    simp only [le_value]; omega
  | [a, b, c], _, h =>
    have ha : a < 256 := h a (by simp)
    have hb : b < 256 := h b (by simp)
    have hc : c < 256 := h c (by simp)
    simp only [le_value]; omega
  | _ :: _ :: _ :: _ :: _, hlen, _ => simp at hlen

theorem decrypt_body_single (ks : List Nat) (n last x y z : Nat) :
    decrypt_body ks n last [x, y, z]
      = le_bytes (decrypt_group ks n (le_value [x, y, z])) last := by
  simp [decrypt_body]

theorem decrypt_body_cons (ks : List Nat) (n last x y z d : Nat) (tl : List Nat) :
    decrypt_body ks n last (x :: y :: z :: d :: tl)
      = le_bytes (decrypt_group ks n (le_value [x, y, z])) 3
          ++ decrypt_body ks n last (d :: tl) := by
  simp [decrypt_body]

theorem encrypt_body_cons (ks : List Nat) (n a b c : Nat) (rest : List Nat) :
    encrypt_body ks n (a :: b :: c :: rest)
      = le_bytes (encrypt_group ks n (le_value [a, b, c])) 3 ++ encrypt_body ks n rest := by
  simp [encrypt_body]

theorem decrypt_body_encrypt_body (ks : List Nat) :
    ∀ c : List Nat, (∀ b ∈ c, b < 256) →
      decrypt_body ks ks.length ((3 + 256 - (3 - c.length % 3) % 3) % 256)
        (encrypt_body ks ks.length c) = c
  | [], _ => by simp [encrypt_body, decrypt_body]
  | [a], h => by
    have ha : a < 256 := h a (by simp)
    obtain ⟨x, y, z, hxyz, hdec⟩ :=
      group_round_trip ks (le_value [a]) (le_value_lt _ (by simp) h)
    have he : encrypt_body ks ks.length [a]
        = le_bytes (encrypt_group ks ks.length (le_value [a])) 3 := by simp [encrypt_body]
    have hl : (3 + 256 - (3 - [a].length % 3) % 3) % 256 = 1 := by simp
    rw [he, hxyz, decrypt_body_single, hdec, hl]
    exact le_bytes_le_value_one a ha
  | [a, b], h => by
    have ha : a < 256 := h a (by simp)
    have hb : b < 256 := h b (by simp)
    obtain ⟨x, y, z, hxyz, hdec⟩ :=
      group_round_trip ks (le_value [a, b]) (le_value_lt _ (by simp) h)
    have he : encrypt_body ks ks.length [a, b]
        = le_bytes (encrypt_group ks ks.length (le_value [a, b])) 3 := by simp [encrypt_body]
    have hl : (3 + 256 - (3 - [a, b].length % 3) % 3) % 256 = 2 := by simp
    rw [he, hxyz, decrypt_body_single, hdec, hl]
    exact le_bytes_le_value_two a b ha hb
  | a :: b :: c :: rest, h => by
    have ha : a < 256 := h a (by simp)
    have hb : b < 256 := h b (by simp)
    have hc : c < 256 := h c (by simp)
    obtain ⟨x, y, z, hxyz, hdec⟩ :=
      group_round_trip ks (le_value [a, b, c])
        (le_value_lt _ (by simp) (fun t ht => h t (by
          simp only [List.mem_cons, List.mem_singleton, List.not_mem_nil, or_false] at ht
          simp only [List.mem_cons]
          tauto)))
    have ih := decrypt_body_encrypt_body ks rest (fun t ht => h t (by simp [ht]))
    have hlen : (a :: b :: c :: rest).length % 3 = rest.length % 3 := by
      simp only [List.length_cons]; omega
    rw [hlen, encrypt_body_cons, hxyz]
    have hbl := encrypt_body_length ks ks.length rest
    cases hbody : encrypt_body ks ks.length rest with
    | nil =>
      rw [hbody] at hbl
      have hr : rest = [] := by
        apply List.eq_nil_of_length_eq_zero
        simp only [List.length_nil] at hbl
        omega
      subst hr
      rw [List.append_nil, decrypt_body_single, hdec]
      exact le_bytes_le_value_three a b c ha hb hc
    | cons e tl =>
      rw [hbody] at ih
      rw [show [x, y, z] ++ e :: tl = x :: y :: z :: e :: tl from rfl, decrypt_body_cons, hdec,
        ih, le_bytes_le_value_three a b c ha hb hc]
      rfl


/-! ## The file operations in closed form -/

theorem encrypt_file_eq (content : List Nat) (k n : Nat) (ks : List Nat)
    (hks : generate_round_keys k n = some ks) :
    encrypt_file content k n =
      { output := (3 - content.length % 3) % 3 :: encrypt_body ks n content,
        blocks := 2 * ((content.length + 2) / 3),
        status := Status.finished } := by
  unfold encrypt_file
  simp only [hks, fopen_rb]
  rw [encrypt_file_loop_eq ks n content _ _ le_rfl, padding_eq, le_bytes_one]
  have hp : (3 - content.length % 3) % 3 % 256 = (3 - content.length % 3) % 3 := by omega
  simp [hp]

theorem decrypt_file_eq (p : Nat) (body : List Nat) (k n : Nat) (ks : List Nat)
    (hks : generate_round_keys k n = some ks) (h3 : body.length % 3 = 0)
    (hp : (3 + 256 - p) % 256 ≤ 4) :
    decrypt_file (p :: body) k n =
      { output := decrypt_body ks n ((3 + 256 - p) % 256) body,
        blocks := 2 * (body.length / 3),
        status := Status.finished } := by
  unfold decrypt_file
  have hsize : ¬ (((p :: body).length : Nat) : Int) % 3 ≠ 1 := by
    simp only [List.length_cons]; omega
  have hrem : ((((p :: body).length : Nat) : Int) - 1) / 3 = ((body.length / 3 : Nat) : Int) := by
    simp only [List.length_cons]; omega
  simp only [hks, fopen_rb, fread]
  rw [if_neg hsize, hrem]
  have hv : le_value (List.take 1 (p :: body)) = p := by simp [le_value]
  have hd : List.drop 1 (p :: body) = body := rfl
  have he : (false || decide ((List.take 1 (p :: body)).length < 1)) = false := by simp
  rw [hv, hd, he,
    decrypt_file_loop_eq ks n p hp body _ _ _ h3 rfl (by simp only [List.length_cons]; omega)]
  simp

theorem encrypt_file_loop_null (n : Nat) (rest : List Nat) (fuel : Nat) (r : Run) :
    encrypt_file_loop none n (fuel + 2) ⟨rest, false⟩ r =
      if rest = [] then r
      else { r with blocks := r.blocks + 1, status := Status.null_keys } := by
  cases rest with
  | nil => simp [encrypt_file_loop, fread]
  | cons a tl => simp [encrypt_file_loop, fread]

theorem decrypt_file_loop_null (n p : Nat) (rest : List Nat) (fuel : Nat) (rem : Int) (r : Run)
    (h3 : rest.length % 3 = 0) :
    decrypt_file_loop none n p (fuel + 2) ⟨rest, false⟩ rem r =
      if rest = [] then r
      else { r with blocks := r.blocks + 1, status := Status.null_keys } := by
  match rest, h3 with
  | [], _ => simp [decrypt_file_loop, fread]
  | [_], h3 => simp at h3
  | [_, _], h3 => simp at h3
  | a :: b :: c :: tl, _ => simp [decrypt_file_loop, fread]

theorem decrypt_file_bad_format (encrypted : List Nat) (k n : Nat)
    (h : encrypted.length % 3 ≠ 1) :
    decrypt_file encrypted k n =
      { output := [], blocks := 0, status := Status.bad_format } := by
  unfold decrypt_file
  have hsize : ((encrypted.length : Nat) : Int) % 3 ≠ 1 := by omega
  simp only []
  rw [if_pos hsize]

/-! ## Claims on the file codec -/

/-- C2 (stream round trip): for every byte sequence `content` (the empty one and
lengths not divisible by 3 included), every key `k ≤ 0x1FF` and every round
count `n` in `[1, 9]`, `encrypt_file` ends normally, and `decrypt_file` run with
the same `k` and `n` on its output ends normally and writes exactly
`content`. -/
theorem stream_round_trip (content : List Nat) (k n : Nat)
    (hbytes : ∀ b ∈ content, b < 256) (_hk : k ≤ 0x1FF) (_h1 : 1 ≤ n) (h9 : n ≤ 9) :
    (encrypt_file content k n).status = Status.finished ∧
    (decrypt_file (encrypt_file content k n).output k n).status = Status.finished ∧
    (decrypt_file (encrypt_file content k n).output k n).output = content := by
  obtain ⟨ks, hks, hlen⟩ := generate_round_keys_some k n h9
  subst hlen
  have hpad : (3 + 256 - (3 - content.length % 3) % 3) % 256 ≤ 4 := by omega
  have h3 : (encrypt_body ks ks.length content).length % 3 = 0 := by
    rw [encrypt_body_length]; omega
  rw [encrypt_file_eq content k _ ks hks]
  refine ⟨rfl, ?_⟩
  rw [decrypt_file_eq _ _ k _ ks hks h3 hpad]
  exact ⟨rfl, decrypt_body_encrypt_body ks content hbytes⟩

theorem stream_round_trip_witness :
    ((∀ b ∈ [0x01, 0x02, 0x03, 0xFF], b < 256) ∧ 0x1C0 ≤ 0x1FF ∧ 1 ≤ 2 ∧ 2 ≤ 9) ∧
    ((encrypt_file [0x01, 0x02, 0x03, 0xFF] 0x1C0 2).status = Status.finished ∧
    (decrypt_file (encrypt_file [0x01, 0x02, 0x03, 0xFF] 0x1C0 2).output 0x1C0 2).status
      = Status.finished ∧
    (decrypt_file (encrypt_file [0x01, 0x02, 0x03, 0xFF] 0x1C0 2).output 0x1C0 2).output
      = [0x01, 0x02, 0x03, 0xFF]) :=
  ⟨by decide,
    stream_round_trip [0x01, 0x02, 0x03, 0xFF] 0x1C0 2 (by decide) (by decide) (by decide)
      (by decide)⟩

/-- C3 (padding invariant of `encrypt_file`): for every input of length `L`, every
key and every round count in `[1, 9]`, `encrypt_file` ends normally, the first
output byte is `(3 - L % 3) % 3` and the output has `1 + L + (3 - L % 3) % 3`
bytes; for the empty input the output is the single byte `0x00`, and when `L`
is a multiple of 3 the output has `1 + L` bytes (no extra group). -/
theorem encrypt_file_padding (content : List Nat) (k n : Nat) (_h1 : 1 ≤ n) (h9 : n ≤ 9) :
    (encrypt_file content k n).status = Status.finished ∧
    (encrypt_file content k n).output.head? = some ((3 - content.length % 3) % 3) ∧
    (encrypt_file content k n).output.length
      = 1 + content.length + (3 - content.length % 3) % 3 ∧
    (content = [] → (encrypt_file content k n).output = [0x00]) ∧
    (content.length % 3 = 0 →
      (encrypt_file content k n).output.length = 1 + content.length) := by
  obtain ⟨ks, hks, _⟩ := generate_round_keys_some k n h9
  rw [encrypt_file_eq content k n ks hks]
  have hl := encrypt_body_length ks n content
  refine ⟨rfl, rfl, ?_, ?_, ?_⟩
  · rw [List.length_cons, hl]; omega
  · intro h
    subst h
    simp [encrypt_body]
  · intro h
    rw [List.length_cons, hl]; omega

theorem encrypt_file_padding_witness :
    (1 ≤ 2 ∧ 2 ≤ 9) ∧
    ((encrypt_file [0x41] 0x1C0 2).status = Status.finished ∧
    (encrypt_file [0x41] 0x1C0 2).output.head? = some ((3 - [0x41].length % 3) % 3) ∧
    (encrypt_file [0x41] 0x1C0 2).output.length
      = 1 + [0x41].length + (3 - [0x41].length % 3) % 3 ∧
    ([0x41] = [] → (encrypt_file [0x41] 0x1C0 2).output = [0x00]) ∧
    ([0x41].length % 3 = 0 →
      (encrypt_file [0x41] 0x1C0 2).output.length = 1 + [0x41].length)) :=
  ⟨by decide, encrypt_file_padding [0x41] 0x1C0 2 (by decide) (by decide)⟩

/-- C5 (decode rejects malformed lengths): for every encrypted input whose
length is not congruent to 1 modulo 3 (length 0 included), every key and every
round count, `decrypt_file` takes its early return: no block is decrypted and no
byte is written. -/
theorem decrypt_file_rejects (encrypted : List Nat) (k n : Nat)
    (h : encrypted.length % 3 ≠ 1) :
    decrypt_file encrypted k n =
      { output := [], blocks := 0, status := Status.bad_format } :=
  decrypt_file_bad_format encrypted k n h

theorem decrypt_file_rejects_witness :
    [0x00, 0x11, 0x22].length % 3 ≠ 1 ∧
    decrypt_file [0x00, 0x11, 0x22] 0x1C0 2 =
      { output := [], blocks := 0, status := Status.bad_format } :=
  ⟨by decide, decrypt_file_rejects [0x00, 0x11, 0x22] 0x1C0 2 (by decide)⟩

/-- C7 as stated fails: with round count 10 the key schedule fails, and both
file operations still reach the block cipher, `encrypt_file` on the one-byte
file `[0x41]` and `decrypt_file` on the four-byte file `[0, 1, 2, 3]`. -/
theorem config_error_reaches_cipher :
    generate_round_keys 0x1C0 10 = none ∧
    (encrypt_file [0x41] 0x1C0 10).blocks = 1 ∧
    (encrypt_file [0x41] 0x1C0 10).status = Status.null_keys ∧
    (decrypt_file [0, 1, 2, 3] 0x1C0 10).blocks = 1 ∧
    (decrypt_file [0, 1, 2, 3] 0x1C0 10).status = Status.null_keys := by
  decide

/-- C7 (amended): for every round count above 9 the key schedule fails, and the
file operations, which do not test its result, call the block cipher on no
block exactly when there is no group to process: `encrypt_file` on the empty
input (it then ends normally having written the padding byte), `decrypt_file`
on an input of length 1 or of a length rejected by the format check. On every
other input the first call of the block cipher is made with the absent
schedule. -/
theorem config_error_blocks (k n : Nat) (hn : 9 < n) (content encrypted : List Nat) :
    generate_round_keys k n = none ∧
    ((encrypt_file content k n).blocks = 0 ↔ content = []) ∧
    (content = [] → encrypt_file content k n = ⟨[0x00], 0, Status.finished⟩) ∧
    (content ≠ [] → (encrypt_file content k n).status = Status.null_keys) ∧
    ((decrypt_file encrypted k n).blocks = 0 ↔
      (encrypted.length % 3 ≠ 1 ∨ encrypted.length = 1)) ∧
    (encrypted.length = 1 → decrypt_file encrypted k n = ⟨[], 0, Status.finished⟩) ∧
    (encrypted.length % 3 = 1 → encrypted.length ≠ 1 →
      (decrypt_file encrypted k n).status = Status.null_keys) := by
  have hks : generate_round_keys k n = none := by
    unfold generate_round_keys
    exact if_pos hn
  have henc : encrypt_file content k n =
      if content = [] then ⟨[0x00], 0, Status.finished⟩
      else ⟨[(3 - content.length % 3) % 3], 1, Status.null_keys⟩ := by
    unfold encrypt_file
    simp only [hks, fopen_rb]
    rw [encrypt_file_loop_null, padding_eq, le_bytes_one]
    have hp : (3 - content.length % 3) % 3 % 256 = (3 - content.length % 3) % 3 := by omega
    rw [hp]
    split
    · next h => subst h; rfl
    · rfl
  have hdec : decrypt_file encrypted k n =
      if encrypted.length % 3 ≠ 1 then ⟨[], 0, Status.bad_format⟩
      else if encrypted.length = 1 then ⟨[], 0, Status.finished⟩
      else ⟨[], 1, Status.null_keys⟩ := by
    by_cases h3 : encrypted.length % 3 ≠ 1
    · rw [if_pos h3]
      exact decrypt_file_bad_format encrypted k n h3
    · rw [if_neg h3]
      have h3p : encrypted.length % 3 = 1 := by omega
      match encrypted, h3p with
      | [], h => simp at h
      | p :: body, h =>
        have hb : body.length % 3 = 0 := by simp only [List.length_cons] at h; omega
        unfold decrypt_file
        have hsize : ¬ (((p :: body).length : Nat) : Int) % 3 ≠ 1 := by
          simp only [List.length_cons]; omega
        simp only [hks, fopen_rb, fread]
        rw [if_neg hsize]
        have hd : List.drop 1 (p :: body) = body := rfl
        have he : (false || decide ((List.take 1 (p :: body)).length < 1)) = false := by simp
        rw [hd, he, show (p :: body).length + 1 = body.length + 2 from rfl,
          decrypt_file_loop_null _ _ _ _ _ _ hb]
        cases body with
        | nil => simp
        | cons a tl => simp
  refine ⟨hks, ?_, ?_, ?_, ?_, ?_, ?_⟩
  · rw [henc]; split <;> simp_all
  · intro h; rw [henc, if_pos h]
  · intro h; rw [henc, if_neg h]
  · rw [hdec]
    by_cases h3 : encrypted.length % 3 ≠ 1
    · simp [h3]
    · by_cases h1 : encrypted.length = 1
      · simp [h1]
      · simp [h3, h1]
  · intro h1
    rw [hdec, if_neg (by omega), if_pos h1]
  · intro h3 h1
    rw [hdec, if_neg (by omega), if_neg h1]

theorem config_error_blocks_witness :
    9 < 10 ∧
    (generate_round_keys 0x1C0 10 = none ∧
    ((encrypt_file [0x41] 0x1C0 10).blocks = 0 ↔ [0x41] = []) ∧
    ([0x41] = [] → encrypt_file [0x41] 0x1C0 10 = ⟨[0x00], 0, Status.finished⟩) ∧
    ([0x41] ≠ [] → (encrypt_file [0x41] 0x1C0 10).status = Status.null_keys) ∧
    ((decrypt_file [0x02] 0x1C0 10).blocks = 0 ↔
      ([0x02].length % 3 ≠ 1 ∨ [0x02].length = 1)) ∧
    ([0x02].length = 1 → decrypt_file [0x02] 0x1C0 10 = ⟨[], 0, Status.finished⟩) ∧
    ([0x02].length % 3 = 1 → [0x02].length ≠ 1 →
      (decrypt_file [0x02] 0x1C0 10).status = Status.null_keys)) :=
  ⟨by decide, config_error_blocks 0x1C0 10 (by decide) [0x41] [0x02]⟩


/-! ## The key schedule in closed form -/

theorem round_keys_loop_take (k : Nat) : ∀ (m j i l r : Nat),
    (round_keys_loop k (m + j) i l r).take m = round_keys_loop k m i l r := by
  intro m
  induction m with
  | zero => intro j i l r; simp [round_keys_loop]
  | succ m ih =>
    intro j i l r
    rw [show m + 1 + j = (m + j) + 1 by omega]
    simp only [round_keys_loop, List.take_succ_cons, ih]

theorem generate_round_keys_take (k n : Nat) (hn : n ≤ 9) :
    generate_round_keys k n = (generate_round_keys k 9).map (List.take n) := by
  obtain ⟨j, hj⟩ : ∃ j, 9 = n + j := ⟨9 - n, by omega⟩
  unfold generate_round_keys
  rw [if_neg (by unfold k_length; omega), if_neg (by unfold k_length; omega)]
  simp only [Option.map_some']
  rw [hj, round_keys_loop_take]

set_option maxHeartbeats 4000000 in
theorem generate_round_keys_nine : ∀ k < 512,
    generate_round_keys k 9 = some ((List.range 9).map (subkey_closed_form k)) := by
  decide

theorem generate_round_keys_closed (k n : Nat) (hk : k < 512) (hn : n ≤ 9) :
    generate_round_keys k n = some ((List.range n).map (subkey_closed_form k)) := by
  rw [generate_round_keys_take k n hn, generate_round_keys_nine k hk]
  simp only [Option.map_some', ← List.map_take, List.take_range, Nat.min_eq_left hn]

theorem subkey_closed_form_low : ∀ k < 512,
    subkey_closed_form k 0 = k >>> 1 ∧ subkey_closed_form k 1 = k &&& 0xFF := by
  decide

set_option maxHeartbeats 4000000 in
theorem closed_form_nodup : ∀ k < 512, ∀ n < 10,
    (((List.range n).map (subkey_closed_form k)).Nodup ↔
      (n ≤ 1 ∨ (rotl9 k 1 ≠ k ∧ n ≤ 3) ∨ rotl9 k 3 ≠ k)) := by
  decide


/-! ## Zero padding of a short final group -/

theorem encrypt_body_pad (ks : List Nat) (n : Nat) :
    ∀ c : List Nat, c.length % 3 ≠ 0 →
      encrypt_body ks n (c ++ List.replicate (3 - c.length % 3) 0) = encrypt_body ks n c
  | [], h => by simp at h
  | [a], _ => by
    simp [encrypt_body, le_value, List.replicate]
  | [a, b], _ => by
    simp [encrypt_body, le_value, List.replicate]
  | a :: b :: c :: rest, h => by
    have hlen : (a :: b :: c :: rest).length % 3 = rest.length % 3 := by
      simp only [List.length_cons]; omega
    rw [hlen] at h ⊢
    rw [List.cons_append, List.cons_append, List.cons_append, encrypt_body_cons,
      encrypt_body_cons, encrypt_body_pad ks n rest h]

/-! ## Further claims on the block cipher and the key schedule -/

/-- C13 as stated fails: for the master key `0x000` and two rounds the two
subkeys are equal. -/
theorem subkeys_not_distinct :
    generate_round_keys 0x000 2 = some [0, 0] ∧ ¬ ([0, 0] : List Nat).Nodup := by
  decide

/-- C13 (amended): for every master key `k ≤ 0x1FF` and every round count `n`
in `[1, 9]`, the `n` subkeys are pairwise distinct exactly when `n = 1`, or
`n ≤ 3` and `k` is not left unchanged by a rotation by one position (`k` is not
`0x000` or `0x1FF`), or `k` is not left unchanged by a rotation by three
positions (`k` is none of `0x000`, `0x049`, `0x092`, `0x0DB`, `0x124`, `0x16D`,
`0x1B6`, `0x1FF`). -/
theorem subkeys_distinct_iff (k n : Nat) (hk : k ≤ 0x1FF) (_h1 : 1 ≤ n) (h9 : n ≤ 9) :
    ∃ ks, generate_round_keys k n = some ks ∧
      (ks.Nodup ↔ (n ≤ 1 ∨ (rotl9 k 1 ≠ k ∧ n ≤ 3) ∨ rotl9 k 3 ≠ k)) :=
  ⟨_, generate_round_keys_closed k n (by omega) h9, closed_form_nodup k (by omega) n (by omega)⟩

theorem subkeys_distinct_iff_witness :
    (0x1C0 ≤ 0x1FF ∧ 1 ≤ 9 ∧ 9 ≤ 9) ∧
    ∃ ks, generate_round_keys 0x1C0 9 = some ks ∧
      (ks.Nodup ↔ (9 ≤ 1 ∨ (rotl9 0x1C0 1 ≠ 0x1C0 ∧ 9 ≤ 3) ∨ rotl9 0x1C0 3 ≠ 0x1C0)) :=
  ⟨by decide, subkeys_distinct_iff 0x1C0 9 (by decide) (by decide) (by decide)⟩

/-- C14: `decrypt` is `encrypt` with the subkeys in reverse order: for every
input `x` and every list `ks` of `n` subkeys (`n ≥ 0`),
`decrypt x ks n = encrypt x ks.reverse n`. -/
theorem decrypt_eq_encrypt_reverse (x : Nat) (ks : List Nat) (n : Nat) (hn : ks.length = n) :
    decrypt x ks n = encrypt x ks.reverse n := by
  subst hn
  have h := encrypt_eq_foldl x ks.reverse
  rw [List.length_reverse] at h
  rw [decrypt_eq_foldl, h]

theorem decrypt_eq_encrypt_reverse_witness :
    [0xE0, 0x07, 0xFF].length = 3 ∧
    decrypt 0xFFFF [0xE0, 0x07, 0xFF] 3 = encrypt 0xFFFF [0xE0, 0x07, 0xFF].reverse 3 :=
  ⟨rfl, decrypt_eq_encrypt_reverse 0xFFFF [0xE0, 0x07, 0xFF] 3 rfl⟩

/-- C16 (closed form of the key schedule): for every master key `k ≤ 0x1FF`,
every `n` in `[1, 9]`, `generate_round_keys k n` succeeds with a list of exactly
`n` entries, and entry `i < n` is
`((((k << i) | (k >> (9 - i))) & 0x1FF) >> 1)`; entry 0 is `k >> 1` and entry 1
(when `n > 1`) is `k & 0xFF`. -/
theorem key_schedule_closed_form (k n : Nat) (hk : k ≤ 0x1FF) (_h1 : 1 ≤ n) (h9 : n ≤ 9) :
    ∃ ks, generate_round_keys k n = some ks ∧ ks.length = n ∧
      (∀ i, i < n → ks[i]? = some ((((k <<< i) ||| (k >>> (9 - i))) &&& 0x1FF) >>> 1)) ∧
      ks[0]? = some (k >>> 1) ∧
      (1 < n → ks[1]? = some (k &&& 0xFF)) := by
  have hk2 : k < 512 := by omega
  have hget : ∀ i, i < n →
      ((List.range n).map (subkey_closed_form k))[i]? = some (subkey_closed_form k i) := by
    intro i hi
    simp [hi]
  refine ⟨_, generate_round_keys_closed k n hk2 h9, by simp, ?_, ?_, ?_⟩
  · intro i hi
    exact hget i hi
  · rw [hget 0 (by omega), (subkey_closed_form_low k hk2).1]
  · intro hn
    rw [hget 1 hn, (subkey_closed_form_low k hk2).2]

theorem key_schedule_closed_form_witness :
    (0x1C0 ≤ 0x1FF ∧ 1 ≤ 9 ∧ 9 ≤ 9) ∧
    ∃ ks, generate_round_keys 0x1C0 9 = some ks ∧ ks.length = 9 ∧
      (∀ i, i < 9 →
        ks[i]? = some ((((0x1C0 <<< i) ||| (0x1C0 >>> (9 - i))) &&& 0x1FF) >>> 1)) ∧
      ks[0]? = some (0x1C0 >>> 1) ∧
      (1 < 9 → ks[1]? = some (0x1C0 &&& 0xFF)) :=
  ⟨by decide, key_schedule_closed_form 0x1C0 9 (by decide) (by decide) (by decide)⟩

/-- C17 (12-bit range invariant): for every input `x` (also one with bits above
bit 11 set), every subkey list `ks` and every `n`, `encrypt x ks n < 4096` and
`decrypt x ks n < 4096`; `feistel_round` maps 12-bit blocks to 12-bit blocks; and
two encrypted blocks packed as `block1 | (block2 << 12)` do not overlap: the low
12 bits are `block1`, the bits above are `block2`, and the value fits 24
bits. -/
theorem block_range (x y : Nat) (ks : List Nat) (n : Nat) :
    encrypt x ks n < 4096 ∧ decrypt x ks n < 4096 ∧
    (∀ b key, b < 4096 → feistel_round b key < 4096) ∧
    (encrypt x ks n ||| (encrypt y ks n <<< 12)) &&& 0xFFF = encrypt x ks n ∧
    (encrypt x ks n ||| (encrypt y ks n <<< 12)) >>> 12 = encrypt y ks n ∧
    (encrypt x ks n ||| (encrypt y ks n <<< 12)) < 2 ^ 24 := by
  have hx := encrypt_lt x ks n
  have hy := encrypt_lt y ks n
  refine ⟨hx, decrypt_lt x ks n, fun b key hb => feistel_round_lt b key hb, ?_, ?_, ?_⟩
  · rw [or_shl_12 _ _ hx, and_fff]; omega
  · rw [or_shl_12 _ _ hx, shr_12]; omega
  · rw [or_shl_12 _ _ hx]; omega

/-- C15 (a short final read is zero-padded): for every content `c` whose length
`L` is not a multiple of 3, with `p = 3 - L % 3`, every key and every round
count in `[1, 9]`, the outputs of `encrypt_file` on `c` and on `c` followed by
`p` zero bytes agree in every byte after the first; the first bytes are `p` and
`0`. -/
theorem short_read_zero_padded (c : List Nat) (k n : Nat) (hL : c.length % 3 ≠ 0)
    (_h1 : 1 ≤ n) (h9 : n ≤ 9) :
    (encrypt_file c k n).output.tail
      = (encrypt_file (c ++ List.replicate (3 - c.length % 3) 0) k n).output.tail ∧
    (encrypt_file c k n).output.head? = some (3 - c.length % 3) ∧
    (encrypt_file (c ++ List.replicate (3 - c.length % 3) 0) k n).output.head? = some 0 := by
  obtain ⟨ks, hks, _⟩ := generate_round_keys_some k n h9
  rw [encrypt_file_eq c k n ks hks, encrypt_file_eq _ k n ks hks]
  have hlen : (c ++ List.replicate (3 - c.length % 3) 0).length % 3 = 0 := by
    rw [List.length_append, List.length_replicate]; omega
  refine ⟨?_, ?_, ?_⟩
  · simp only [List.tail_cons]
    exact (encrypt_body_pad ks n c hL).symm
  · simp only [List.head?_cons]
    congr 1
    omega
  · simp only [List.head?_cons, hlen]

theorem short_read_zero_padded_witness :
    ([0x41, 0x42, 0x43, 0x44].length % 3 ≠ 0 ∧ 1 ≤ 2 ∧ 2 ≤ 9) ∧
    ((encrypt_file [0x41, 0x42, 0x43, 0x44] 0x1C0 2).output.tail
      = (encrypt_file ([0x41, 0x42, 0x43, 0x44]
          ++ List.replicate (3 - [0x41, 0x42, 0x43, 0x44].length % 3) 0) 0x1C0 2).output.tail ∧
    (encrypt_file [0x41, 0x42, 0x43, 0x44] 0x1C0 2).output.head?
      = some (3 - [0x41, 0x42, 0x43, 0x44].length % 3) ∧
    (encrypt_file ([0x41, 0x42, 0x43, 0x44]
        ++ List.replicate (3 - [0x41, 0x42, 0x43, 0x44].length % 3) 0) 0x1C0 2).output.head?
      = some 0) :=
  ⟨by decide,
    short_read_zero_padded [0x41, 0x42, 0x43, 0x44] 0x1C0 2 (by decide) (by decide)
      (by decide)⟩


/-! ## The groups of a file body -/

theorem encrypt_group_plain (ks : List Nat) (n v : Nat) (hv : v < 2 ^ 24) :
    encrypt_group ks n v
      = encrypt (v &&& 0xFFF) ks n ||| (encrypt (v >>> 12) ks n <<< 12) := by
  have h1 := encrypt_lt (v &&& 0xFFF) ks n
  have h2 := encrypt_lt (v >>> 12) ks n
  have e1 : (v &&& 0xFFF) % 65536 = v &&& 0xFFF := by rw [and_fff]; omega
  have e2 : (v >>> 12) % 65536 = v >>> 12 := by rw [shr_12]; omega
  unfold encrypt_group
  rw [e1, e2, or_shl_12 _ _ h1]
  omega

theorem decrypt_group_plain (ks : List Nat) (n v : Nat) (hv : v < 2 ^ 24) :
    decrypt_group ks n v
      = (decrypt (v >>> 12) ks n <<< 12) ||| decrypt (v &&& 0xFFF) ks n := by
  have h1 := decrypt_lt (v &&& 0xFFF) ks n
  have h2 := decrypt_lt (v >>> 12) ks n
  have e1 : (v &&& 0xFFF) % 65536 = v &&& 0xFFF := by rw [and_fff]; omega
  have e2 : (v >>> 12) % 65536 = v >>> 12 := by rw [shr_12]; omega
  unfold decrypt_group
  rw [e1, e2, Nat.or_comm, or_shl_12 _ _ h1]
  omega

theorem group_bytes (c : List Nat) (i : Nat) (h : ∀ b ∈ c, b < 256) :
    le_value ((c.drop (3 * i)).take 3) < 2 ^ 24 :=
  le_value_lt _ (by simp [List.length_take])
    (fun b hb => h b (List.mem_of_mem_drop (List.mem_of_mem_take hb)))

theorem encrypt_body_group (ks : List Nat) (n : Nat) : ∀ (i : Nat) (c : List Nat),
    3 * i < c.length →
    ((encrypt_body ks n c).drop (3 * i)).take 3
      = le_bytes (encrypt_group ks n (le_value ((c.drop (3 * i)).take 3))) 3 := by
  intro i
  induction i with
  | zero =>
    intro c hc
    match c, hc with
    | [], hc => simp at hc
    | [a], _ => simp [encrypt_body, le_bytes_three]
    | [a, b], _ => simp [encrypt_body, le_bytes_three]
    | a :: b :: c :: rest, _ =>
      rw [encrypt_body_cons]
      simp [le_bytes_three]
  | succ i ih =>
    intro c hc
    match c, hc with
    | [], hc => simp at hc
    | [_], hc => simp only [List.length_cons, List.length_nil] at hc; omega
    | [_, _], hc => simp only [List.length_cons, List.length_nil] at hc; omega
    | a :: b :: c :: rest, hc =>
      have hr : 3 * i < rest.length := by simp only [List.length_cons] at hc; omega
      rw [encrypt_body_cons, le_bytes_three, show 3 * (i + 1) = 3 * i + 3 by omega]
      simp only [List.cons_append, List.nil_append, List.drop_succ_cons]
      exact ih rest hr

theorem decrypt_body_length (ks : List Nat) (n last : Nat) : ∀ body : List Nat,
    body.length % 3 = 0 → body ≠ [] →
    (decrypt_body ks n last body).length = body.length - 3 + last
  | [], _, h => by simp at h
  | [_], h, _ => by simp at h
  | [_, _], h, _ => by simp at h
  | [a, b, c], _, _ => by
    rw [decrypt_body_single, le_bytes_length]; simp
  | a :: b :: c :: d :: tl, h, _ => by
    have h3 : (d :: tl).length % 3 = 0 := by simp only [List.length_cons] at h ⊢; omega
    have ih := decrypt_body_length ks n last (d :: tl) h3 (by simp)
    rw [decrypt_body_cons, List.length_append, le_bytes_length, ih]
    simp only [List.length_cons] at h3 ⊢
    omega

theorem decrypt_body_group (ks : List Nat) (n last : Nat) (hlast : last ≤ 3) :
    ∀ (i : Nat) (body : List Nat), body.length % 3 = 0 → 3 * i < body.length →
    ((decrypt_body ks n last body).drop (3 * i)).take 3
      = le_bytes (decrypt_group ks n (le_value ((body.drop (3 * i)).take 3)))
          (if 3 * (i + 1) = body.length then last else 3) := by
  intro i
  induction i with
  | zero =>
    intro body h3 hi
    match body, h3, hi with
    | [], _, hi => simp at hi
    | [_], h3, _ => simp at h3
    | [_, _], h3, _ => simp at h3
    | [a, b, c], _, _ =>
      rw [decrypt_body_single]
      have ht : ∀ v, List.take 3 (le_bytes v last) = le_bytes v last := fun v =>
        List.take_of_length_le (by rw [le_bytes_length]; exact hlast)
      simp [ht]
    | a :: b :: c :: d :: tl, _, _ =>
      rw [decrypt_body_cons]
      simp [le_bytes_three]
  | succ i ih =>
    intro body h3 hi
    match body, h3, hi with
    | [], _, hi => simp at hi
    | [_], h3, _ => simp at h3
    | [_, _], h3, _ => simp at h3
    | [a, b, c], _, hi => simp only [List.length_cons, List.length_nil] at hi; omega
    | a :: b :: c :: d :: tl, h3, hi =>
      have h3r : (d :: tl).length % 3 = 0 := by simp only [List.length_cons] at h3 ⊢; omega
      have hir : 3 * i < (d :: tl).length := by simp only [List.length_cons] at hi ⊢; omega
      have hih := ih (d :: tl) h3r hir
      rw [decrypt_body_cons, le_bytes_three, show 3 * (i + 1) = 3 * i + 3 by omega]
      simp only [List.cons_append, List.nil_append, List.drop_succ_cons]
      rw [hih]
      congr 1
      simp only [List.length_cons]
      by_cases hc : 3 * (i + 1) = tl.length + 1
      · rw [if_pos hc, if_pos (by omega)]
      · rw [if_neg hc, if_neg (by omega)]

/-! ## Bounds-checked reads -/

theorem confuse_checked_eq : ∀ x < 256, confuse_checked x = some (confuse x) := by
  decide

theorem feistel_checked_eq (input key : Nat) :
    feistel_checked input key = some (feistel input key) :=
  confuse_checked_eq _ (Nat.mod_lt _ (by decide))

theorem feistel_round_checked_eq (input key : Nat) :
    feistel_round_checked input key = some (feistel_round input key) := by
  unfold feistel_round_checked
  rw [feistel_checked_eq]
  rfl

theorem rounds_checked_eq (ks : List Nat) : ∀ (idxs : List Nat) (data : Nat),
    (∀ i ∈ idxs, i < ks.length) →
    rounds_checked ks idxs data
      = some (idxs.foldl (fun d i => feistel_round d (ks.getD i 0)) data)
  | [], data, _ => rfl
  | i :: idxs, data, h => by
    have hi : i < ks.length := h i (by simp)
    have hget : ks[i]? = some (ks.getD i 0) := by
      rw [List.getD_eq_getElem ks 0 hi]
      exact List.getElem?_eq_getElem hi
    simp only [rounds_checked, hget, feistel_round_checked_eq, List.foldl_cons]
    exact rounds_checked_eq ks idxs _ (fun j hj => h j (by simp [hj]))


/-! ## Further claims on the file codec and on index safety -/

/-- C11 (encoded group layout): for every input `content` (bytes below 256), key
`k ≤ 0x1FF`, round count `n` in `[1, 9]` and every group index `i` with
`3 * i < content.length`, bytes `1 + 3 * i .. 3 + 3 * i` of the output of
`encrypt_file` are the little-endian encoding of
`encrypt (v & 0xFFF) ks n | (encrypt (v >> 12) ks n << 12)`, where `v` is the
little-endian value of the `i`-th input group (zero-padded if short) and `ks` is
the key schedule; any other input with the same `i`-th group gives the same
`i`-th output group. -/
theorem encoded_group_layout (content : List Nat) (k n i : Nat)
    (hbytes : ∀ b ∈ content, b < 256) (_hk : k ≤ 0x1FF) (_h1 : 1 ≤ n) (h9 : n ≤ 9)
    (hi : 3 * i < content.length) :
    ∃ ks, generate_round_keys k n = some ks ∧
      ((encrypt_file content k n).output.drop (1 + 3 * i)).take 3
        = le_bytes
            (encrypt (le_value ((content.drop (3 * i)).take 3) &&& 0xFFF) ks n
              ||| (encrypt (le_value ((content.drop (3 * i)).take 3) >>> 12) ks n <<< 12)) 3 ∧
      ∀ content2 : List Nat,
        (content2.drop (3 * i)).take 3 = (content.drop (3 * i)).take 3 →
        ((encrypt_file content2 k n).output.drop (1 + 3 * i)).take 3
          = ((encrypt_file content k n).output.drop (1 + 3 * i)).take 3 := by
  obtain ⟨ks, hks, _⟩ := generate_round_keys_some k n h9
  have hdrop : ∀ c : List Nat, ((encrypt_file c k n).output.drop (1 + 3 * i)).take 3
      = ((encrypt_body ks n c).drop (3 * i)).take 3 := by
    intro c
    rw [encrypt_file_eq c k n ks hks, Nat.add_comm 1 (3 * i)]
    rfl
  refine ⟨ks, hks, ?_, ?_⟩
  · rw [hdrop, encrypt_body_group ks n i content hi,
      encrypt_group_plain ks n _ (group_bytes content i hbytes)]
  · intro content2 h2
    have hi2 : 3 * i < content2.length := by
      by_contra hle
      have hnil : content2.drop (3 * i) = [] := List.drop_eq_nil_of_le (by omega)
      rw [hnil, List.take_nil] at h2
      have hlen := congrArg List.length h2
      simp only [List.length_nil, List.length_take, List.length_drop] at hlen
      omega
    rw [hdrop, hdrop, encrypt_body_group ks n i content hi,
      encrypt_body_group ks n i content2 hi2, h2]

theorem encoded_group_layout_witness :
    ((∀ b ∈ [0x01, 0x02, 0x03, 0xFF], b < 256) ∧ 0x1C0 ≤ 0x1FF ∧ 1 ≤ 2 ∧ 2 ≤ 9 ∧
      3 * 1 < [0x01, 0x02, 0x03, 0xFF].length) ∧
    ∃ ks, generate_round_keys 0x1C0 2 = some ks ∧
      ((encrypt_file [0x01, 0x02, 0x03, 0xFF] 0x1C0 2).output.drop (1 + 3 * 1)).take 3
        = le_bytes
            (encrypt (le_value (([0x01, 0x02, 0x03, 0xFF].drop (3 * 1)).take 3) &&& 0xFFF) ks 2
              ||| (encrypt (le_value (([0x01, 0x02, 0x03, 0xFF].drop (3 * 1)).take 3) >>> 12)
                    ks 2 <<< 12)) 3 ∧
      ∀ content2 : List Nat,
        (content2.drop (3 * 1)).take 3 = ([0x01, 0x02, 0x03, 0xFF].drop (3 * 1)).take 3 →
        ((encrypt_file content2 0x1C0 2).output.drop (1 + 3 * 1)).take 3
          = ((encrypt_file [0x01, 0x02, 0x03, 0xFF] 0x1C0 2).output.drop (1 + 3 * 1)).take 3 :=
  ⟨by decide,
    encoded_group_layout [0x01, 0x02, 0x03, 0xFF] 0x1C0 2 1 (by decide) (by decide) (by decide)
      (by decide) (by decide)⟩

/-- C12 (decode trims only the last group): for every encrypted input
`p :: body` of length `1 + 3 * N` with `N ≥ 1` (bytes below 256) whose first byte
`p` is 0, 1 or 2, every key and every round count in `[1, 9]`, `decrypt_file`
ends normally and writes exactly `3 * N - p` bytes: for each group `i < N` the
output holds, from offset `3 * i`, the little-endian bytes of
`(decrypt (v >> 12) ks n << 12) | decrypt (v & 0xFFF) ks n`, where `v` is the
value of the `i`-th input group, 3 of them for the first `N - 1` groups and the
first `3 - p` for the last one. -/
theorem decode_trims_last (p : Nat) (body : List Nat) (k n N : Nat)
    (hbytes : ∀ b ∈ body, b < 256) (hlen : body.length = 3 * N) (hN : 1 ≤ N) (hp : p ≤ 2)
    (_h1 : 1 ≤ n) (h9 : n ≤ 9) :
    ∃ ks, generate_round_keys k n = some ks ∧
      (decrypt_file (p :: body) k n).status = Status.finished ∧
      (decrypt_file (p :: body) k n).output.length = 3 * N - p ∧
      ∀ i, i < N →
        ((decrypt_file (p :: body) k n).output.drop (3 * i)).take 3
          = le_bytes
              ((decrypt (le_value ((body.drop (3 * i)).take 3) >>> 12) ks n <<< 12)
                ||| decrypt (le_value ((body.drop (3 * i)).take 3) &&& 0xFFF) ks n)
              (if i + 1 = N then 3 - p else 3) := by
  obtain ⟨ks, hks, _⟩ := generate_round_keys_some k n h9
  have h3 : body.length % 3 = 0 := by omega
  have hlast : (3 + 256 - p) % 256 = 3 - p := by omega
  have hne : body ≠ [] := by
    intro h
    rw [h] at hlen
    simp only [List.length_nil] at hlen
    omega
  refine ⟨ks, hks, ?_, ?_, ?_⟩
  · rw [decrypt_file_eq p body k n ks hks h3 (by omega)]
  · rw [decrypt_file_eq p body k n ks hks h3 (by omega)]
    simp only []
    rw [decrypt_body_length ks n _ body h3 hne, hlast, hlen]
    omega
  · intro i hi
    rw [decrypt_file_eq p body k n ks hks h3 (by omega)]
    simp only []
    rw [hlast, decrypt_body_group ks n (3 - p) (by omega) i body h3 (by omega),
      decrypt_group_plain ks n _ (group_bytes body i hbytes)]
    congr 1
    by_cases hc : i + 1 = N
    · rw [if_pos hc, if_pos (by omega)]
    · rw [if_neg hc, if_neg (by omega)]

theorem decode_trims_last_witness :
    ((∀ b ∈ [0x29, 0xC8, 0x1A], b < 256) ∧ [0x29, 0xC8, 0x1A].length = 3 * 1 ∧ 1 ≤ 1 ∧
      2 ≤ 2 ∧ 1 ≤ 2 ∧ 2 ≤ 9) ∧
    ∃ ks, generate_round_keys 0x1C0 2 = some ks ∧
      (decrypt_file (2 :: [0x29, 0xC8, 0x1A]) 0x1C0 2).status = Status.finished ∧
      (decrypt_file (2 :: [0x29, 0xC8, 0x1A]) 0x1C0 2).output.length = 3 * 1 - 2 ∧
      ∀ i, i < 1 →
        ((decrypt_file (2 :: [0x29, 0xC8, 0x1A]) 0x1C0 2).output.drop (3 * i)).take 3
          = le_bytes
              ((decrypt (le_value (([0x29, 0xC8, 0x1A].drop (3 * i)).take 3) >>> 12) ks 2
                  <<< 12)
                ||| decrypt (le_value (([0x29, 0xC8, 0x1A].drop (3 * i)).take 3) &&& 0xFFF)
                      ks 2)
              (if i + 1 = 1 then 3 - 2 else 3) :=
  ⟨by decide,
    decode_trims_last 2 [0x29, 0xC8, 0x1A] 0x1C0 2 1 (by decide) (by decide) (by decide)
      (by decide) (by decide) (by decide)⟩

/-- C18 (index safety): for every 8-bit input both table reads of `confuse` use
an index below 16 and inside the table, so the bounds-checked `confuse` returns
the value of `confuse`; and for every key `k ≤ 0x1FF`, round count `n` in
`[1, 9]` and input `x`, with `ks` the key schedule, every index read by `encrypt`
and `decrypt` (the indices `0 .. n - 1`) is inside `ks`, so the bounds-checked
`encrypt` and `decrypt` never leave through the out-of-range branch and return
the values of `encrypt` and `decrypt`. -/
theorem index_safety (k n x : Nat) (_hk : k ≤ 0x1FF) (_h1 : 1 ≤ n) (h9 : n ≤ 9) :
    (∀ b, b < 256 →
      b >>> 4 < 16 ∧ b >>> 4 < s1_box.length ∧ b &&& 15 < 16 ∧ b &&& 15 < s2_box.length ∧
      confuse_checked b = some (confuse b)) ∧
    ∃ ks, generate_round_keys k n = some ks ∧ ks.length = n ∧
      (∀ i ∈ List.range n, i < ks.length) ∧
      (∀ i ∈ (List.range n).reverse, i < ks.length) ∧
      encrypt_checked x ks n = some (encrypt x ks n) ∧
      decrypt_checked x ks n = some (decrypt x ks n) := by
  obtain ⟨ks, hks, hlen⟩ := generate_round_keys_some k n h9
  have hr : ∀ i ∈ List.range n, i < ks.length := by
    intro i hi
    rw [hlen]
    exact List.mem_range.mp hi
  have hrr : ∀ i ∈ (List.range n).reverse, i < ks.length :=
    fun i hi => hr i (List.mem_reverse.mp hi)
  refine ⟨?_, ks, hks, hlen, hr, hrr, ?_, ?_⟩
  · have hall : ∀ b < 256, b >>> 4 < 16 ∧ b >>> 4 < s1_box.length ∧ b &&& 15 < 16 ∧
        b &&& 15 < s2_box.length := by decide
    exact fun b hb => ⟨(hall b hb).1, (hall b hb).2.1, (hall b hb).2.2.1, (hall b hb).2.2.2,
      confuse_checked_eq b hb⟩
  · unfold encrypt_checked encrypt
    rw [rounds_checked_eq ks _ x hr]
    rfl
  · unfold decrypt_checked decrypt
    rw [rounds_checked_eq ks _ x hrr]
    rfl

theorem index_safety_witness :
    (0x1C0 ≤ 0x1FF ∧ 1 ≤ 9 ∧ 9 ≤ 9) ∧
    ((∀ b, b < 256 →
      b >>> 4 < 16 ∧ b >>> 4 < s1_box.length ∧ b &&& 15 < 16 ∧ b &&& 15 < s2_box.length ∧
      confuse_checked b = some (confuse b)) ∧
    ∃ ks, generate_round_keys 0x1C0 9 = some ks ∧ ks.length = 9 ∧
      (∀ i ∈ List.range 9, i < ks.length) ∧
      (∀ i ∈ (List.range 9).reverse, i < ks.length) ∧
      encrypt_checked 0xABC ks 9 = some (encrypt 0xABC ks 9) ∧
      decrypt_checked 0xABC ks 9 = some (decrypt 0xABC ks 9)) :=
  ⟨by decide, index_safety 0x1C0 9 0xABC (by decide) (by decide) (by decide)⟩

end SDES
